import Mathlib

/-!
Verification development for the DiffDen snapshot engine.

This file gives a shallow embedding of the core of the repository:
the path/slug utilities (`src/utils.ts`), the snapshot store
(`src/tracker.ts`: `snapshot`, `getLog`, `getDiff`, `getContent`,
`restore`), and the change watcher (`src/watcher.ts`: `startWatching`,
`stopWatching`, change handler and debounce timer), together with
theorems about the claims of the specification.

Conventions of the embedding:
* the filesystem is an association list from path to content, plus a
  set of paths where `writeFileSync` throws;
* the git backend of one project is a `Repo`: a working tree
  (the files copied into the repo directory) and an append-only
  `history` of commits, oldest first; the tree of the commit at index
  `i` assigns to a file the content of the last commit with index
  `≤ i` that touched it;
* the whole process state is a `Sys`: home directory, filesystem,
  repos keyed by repo path, fresh-id counters, the module-level
  watcher map, the set of armed (not yet fired) debounce timers, the
  registered notification callback, and the log of notifications
  fired so far.  Asynchronous steps (change event, timer expiry) are
  explicit state-transition functions.
-/

namespace DiffDen

/-! ### Path and slug utilities (`src/utils.ts`, `src/config.ts`) -/

/-- One character of the slug sanitization: the JS replacement
`replace(/[^a-zA-Z0-9_-]/g, "_")` keeps ASCII alphanumerics, `_` and
`-`, and replaces everything else with `_`. -/
def slugChar (c : Char) : Char :=
  if c.isAlphanum || c = '_' || c = '-' then c else '_'

/-- Drop trailing path separators, as `path.basename` does. -/
def dropTrailingSlashes (cs : List Char) : List Char :=
  (cs.reverse.dropWhile (fun c => c = '/')).reverse

/-- The segment after the last separator. -/
def lastSegment (cs : List Char) : List Char :=
  (cs.reverse.takeWhile (fun c => ¬ c = '/')).reverse

/-- Model of node `path.basename` on an absolute normalized path
(`resolve` is the identity on such paths). -/
def basenameStr (p : String) : String :=
  ⟨lastSegment (dropTrailingSlashes p.data)⟩

/-- `projectSlug` from `src/utils.ts`:
`basename(resolve(dirPath)).replace(/[^a-zA-Z0-9_-]/g, "_")`. -/
def projectSlug (dirPath : String) : String :=
  ⟨(basenameStr dirPath).data.map slugChar⟩

/-- `DATA_DIR = join(homedir(), ".diffden")`. -/
def DATA_DIR (home : String) : String := home ++ "/.diffden"

/-- `REPOS_DIR = join(DATA_DIR, "repos")`. -/
def REPOS_DIR (home : String) : String := DATA_DIR home ++ "/repos"

/-- `getRepoPath` from `src/config.ts`. -/
def getRepoPath (home slug : String) : String := REPOS_DIR home ++ "/" ++ slug

/-- `join(dir, fileName)` for one final component. -/
def joinPath (dir fileName : String) : String := dir ++ "/" ++ fileName

/-- `key.endsWith(suffix)` from JS. -/
def strEndsWith (s suf : String) : Bool := suf.data.isSuffixOf s.data

/-! ### Association lists -/

/-- Lookup in an association list keyed by strings (JS `Map.get` /
`Array.find`). -/
def lookupA {α : Type} (l : List (String × α)) (k : String) : Option α :=
  (l.find? (fun e => e.1 = k)).map (fun e => e.2)

/-- Update/insert in an association list (overwrite semantics). -/
def setA {α : Type} (l : List (String × α)) (k : String) (v : α) :
    List (String × α) :=
  (k, v) :: l.filter (fun e => ¬ e.1 = k)

/-- Keys of an association list are pairwise distinct. -/
def distinctKeys {α : Type} (l : List (String × α)) : Prop :=
  (l.map Prod.fst).Nodup

instance {α : Type} (l : List (String × α)) : Decidable (distinctKeys l) := by
  unfold distinctKeys; infer_instance

/-- Number of entries under one key. -/
def countKey {α : Type} (l : List (String × α)) (k : String) : Nat :=
  (l.filter (fun e => e.1 = k)).length

/-! ### Filesystem model -/

/-- The filesystem: path ↦ content, plus the set of paths where a
write would throw. -/
structure FS where
  files : List (String × String)
  unwritable : List String
deriving DecidableEq

def FS.read (fs : FS) (p : String) : Option String :=
  lookupA fs.files p

/-- `existsSync`. -/
def FS.pathExists (fs : FS) (p : String) : Bool :=
  (fs.read p).isSome

/-- `writeFileSync`: `none` models a thrown exception. -/
def FS.write (fs : FS) (p c : String) : Option FS :=
  if p ∈ fs.unwritable then none
  else some { fs with files := setA fs.files p c }

/-! ### Snapshot store state (`src/tracker.ts`) -/

/-- One git commit of the per-project backend repo.  Every commit of
this application touches exactly one file. -/
structure Commit where
  id : Nat
  fileName : String
  content : String
  message : String
deriving DecidableEq

/-- One project's backend repository: the working tree (files copied
into the repo directory) and the commit history, oldest first. -/
structure Repo where
  workTree : List (String × String)
  history : List Commit
deriving DecidableEq

def emptyRepo : Repo := ⟨[], []⟩

/-- Content of `fileName` in the git tree reached after the given
commit prefix of the history: the content of the last commit in the
prefix that touched the file. -/
def treeContent (hist : List Commit) (fileName : String) : Option String :=
  ((hist.filter (fun c => c.fileName = fileName)).getLast?).map
    (fun c => c.content)

/-- Content of `fileName` at HEAD. -/
def Repo.headContent (r : Repo) (fileName : String) : Option String :=
  treeContent r.history fileName

/-- Index of the commit with the given revision id (the backend's
commit lookup). -/
def revIndex : List Commit → Nat → Option Nat
  | [], _ => none
  | c :: cs, h => if c.id = h then some 0 else (revIndex cs h).map (· + 1)

/-! ### Process state -/

/-- One entry of the module-level `watchers` map, together with the
variables captured by its change-handler closure.  `gen` identifies
the closure instance (and thus its private `debounceTimer` slot). -/
structure WatchEntry where
  filePath : String
  slug : String
  fileName : String
  gen : Nat
deriving DecidableEq

/-- An armed, not yet fired, debounce timer: the values the
`setTimeout` callback captured. -/
structure Timer where
  slug : String
  fileName : String
  filePath : String
  gen : Nat
deriving DecidableEq

/-- `${slug}:${fileName}` -/
def watchKey (slug fileName : String) : String := slug ++ ":" ++ fileName

def Timer.key (t : Timer) : String := watchKey t.slug t.fileName

/-- A `ProjectConfig` from `src/config.ts`. -/
structure ProjectConfig where
  slug : String
  dir : String
  files : List String

/-- The whole process state. -/
structure Sys where
  home : String
  fs : FS
  repos : List (String × Repo)
  nextId : Nat
  nextGen : Nat
  watchers : List (String × WatchEntry)
  armed : List Timer
  callback : Bool
  notifications : List (String × String)
deriving DecidableEq

/-- History of the repo at a repo path (a repo that was never created
has the empty history). -/
def Sys.historyAt (s : Sys) (repoPath : String) : List Commit :=
  ((lookupA s.repos repoPath).getD emptyRepo).history

/-- `snapshot` from `src/tracker.ts`.  `getGit` ensures the repo
directory and an initialized repository exist; if the source file does
not exist the call returns `null`; otherwise the bytes are copied into
the repo working tree and staged (`git add`), and a commit is made
only when the staged content differs from HEAD (`status.staged`
nonempty). -/
def Sys.snapshot (s : Sys) (slug sourceFilePath : String) : Option Nat × Sys :=
  let repoPath := getRepoPath s.home slug
  let repo := (lookupA s.repos repoPath).getD emptyRepo
  let fileName := basenameStr sourceFilePath
  match s.fs.read sourceFilePath with
  | none => (none, { s with repos := setA s.repos repoPath repo })
  | some content =>
    let staged : Repo := { repo with workTree := setA repo.workTree fileName content }
    if staged.headContent fileName = some content then
      (none, { s with repos := setA s.repos repoPath staged })
    else
      (some s.nextId,
        { s with
            repos := setA s.repos repoPath
              { staged with
                  history := staged.history ++
                    [⟨s.nextId, fileName, content,
                      "[" ++ fileName ++ "] auto-snapshot"⟩] },
            nextId := s.nextId + 1 })

/-! ### Change watcher (`src/watcher.ts`) -/

/-- The body of the `for` loop of `startWatching` for one file name:
skip if the key is already watched, otherwise create the chokidar
watcher and register it. -/
def startOne (slug dir : String) (s : Sys) (fileName : String) : Sys :=
  let filePath := joinPath dir fileName
  let key := watchKey slug fileName
  if (lookupA s.watchers key).isSome then s
  else
    { s with
        watchers := s.watchers ++ [(key, ⟨filePath, slug, fileName, s.nextGen⟩)],
        nextGen := s.nextGen + 1 }

/-- `startWatching(project)`. -/
def Sys.startWatching (s : Sys) (p : ProjectConfig) : Sys :=
  p.files.foldl (startOne p.slug p.dir) s

/-- Delivery of one raw `change` event for a key.  A closed chokidar
watcher delivers no events, so the step is the identity when the key
is not watched.  The handler clears its own pending timer, if any, and
re-arms it. -/
def Sys.changeEvent (s : Sys) (key : String) : Sys :=
  match lookupA s.watchers key with
  | none => s
  | some e =>
    { s with
        armed :=
          (s.armed.filter (fun t => ¬ (t.key = key ∧ t.gen = e.gen))) ++
            [⟨e.slug, e.fileName, e.filePath, e.gen⟩] }

/-- `stopWatching(slug, fileName?)`: closes and removes every matching
watcher.  The armed debounce timers are left untouched: the
closure-local `debounceTimer` variable is not reachable from
`stopWatching`, and `watcher.close()` does not cancel a pending
`setTimeout`. -/
def Sys.stopWatching (s : Sys) (slug : String) (fileName : Option String) : Sys :=
  { s with
      watchers := s.watchers.filter (fun kv =>
        !(kv.2.slug == slug &&
          (fileName.all (fun f => strEndsWith kv.1 (":" ++ f))))) }

/-- `stopAll()`. -/
def Sys.stopAll (s : Sys) : Sys := { s with watchers := [] }

/-- Expiry of an armed debounce timer: the timer is consumed, the
`setTimeout` body runs `snapshot` on the captured slug and file path,
and, when it returned a hash and a callback is registered, the
notification callback fires. -/
def Sys.fireTimer (s : Sys) (t : Timer) : Sys :=
  if t ∈ s.armed then
    let s1 : Sys := { s with armed := s.armed.erase t }
    let r := s1.snapshot t.slug t.filePath
    match r.1 with
    | some _ =>
      if r.2.callback then
        { r.2 with notifications := r.2.notifications ++ [(t.slug, t.fileName)] }
      else r.2
    | none => r.2
  else s

/-! ### Diff model (`getDiff` and the backend `git diff`) -/

/-- A line of a unified diff: an addition or a deletion. -/
inductive DiffLine : Type
  | add : String → DiffLine
  | del : String → DiffLine
deriving DecidableEq

/-- Split a character list at newlines (model of line splitting). -/
def splitNl : List Char → List (List Char)
  | [] => [[]]
  | c :: cs =>
    if c = '\n' then [] :: splitNl cs
    else
      match splitNl cs with
      | [] => [[c]]
      | l :: ls => (c :: l) :: ls

/-- The lines of a string. -/
def splitLines (s : String) : List String := (splitNl s.data).map String.mk

/-- The lines of an optional blob: a file absent from the tree, or an
empty blob, has zero lines. -/
def fileLines : Option String → List String
  | none => []
  | some c => if c = "" then [] else splitLines c

/-- The backend's line diff between two line sequences.  Equal lines
produce nothing; a divergence produces a deletion and/or an
addition. -/
def diffLines : List String → List String → List DiffLine
  | [], ns => ns.map DiffLine.add
  | o :: os, [] => DiffLine.del o :: diffLines os []
  | o :: os, n :: ns =>
    if o = n then diffLines os ns
    else DiffLine.del o :: DiffLine.add n :: diffLines os ns

/-- First-occurrence dedup of a list of file names. -/
def dedupFirst : List String → List String
  | [] => []
  | x :: xs => x :: dedupFirst (xs.filter (fun y => ¬ y = x))
termination_by l => l.length
decreasing_by
  simp_wf
  exact Nat.lt_succ_of_le (List.length_filter_le _ _)

/-- Full-tree diff between the trees reached by two history prefixes:
per-file diffs over the union of the file names. -/
def diffTrees (oldHist newHist : List Commit) : List DiffLine :=
  (dedupFirst ((oldHist ++ newHist).map (fun c => c.fileName))).flatMap
    (fun f =>
      diffLines (fileLines (treeContent oldHist f))
        (fileLines (treeContent newHist f)))

/-- Result of `getDiff`: a nonempty diff, or one of the two sentinel
strings of the source. -/
inductive DiffResult : Type
  | lines : List DiffLine → DiffResult
  | noDiffAvailable : DiffResult
  | initialSnapshot : DiffResult
deriving DecidableEq

/-- Models `diff || sentinel`: empty diff output falls back to the
sentinel string. -/
def mkResult (ls : List DiffLine) (ifEmpty : DiffResult) : DiffResult :=
  if ls = [] then ifEmpty else DiffResult.lines ls

/-- `getDiff` from `src/tracker.ts`.  The first attempt
`git diff hash^ hash [-- fileName]` throws when `hash^` does not
resolve: for an unknown hash (both attempts throw, so the outer catch
returns the "(no diff available)" sentinel) and for the root commit,
where the fallback diffs the commit against the empty tree with no
path filter. -/
def getDiff (r : Repo) (hash : Nat) (fileName : Option String) : DiffResult :=
  match revIndex r.history hash with
  | none => DiffResult.noDiffAvailable
  | some i =>
    if i = 0 then
      mkResult (diffTrees [] (r.history.take 1)) DiffResult.initialSnapshot
    else
      match fileName with
      | some f =>
        mkResult
          (diffLines (fileLines (treeContent (r.history.take i) f))
            (fileLines (treeContent (r.history.take (i + 1)) f)))
          DiffResult.noDiffAvailable
      | none =>
        mkResult (diffTrees (r.history.take i) (r.history.take (i + 1)))
          DiffResult.noDiffAvailable

/-! ### `getContent` and `restore` -/

/-- The sentinel returned by `getContent` when `git show` throws. -/
def contentSentinel : String := "(content not available)"

/-- `getContent` from `src/tracker.ts`: `git show hash:fileName`,
with the sentinel on failure (unknown revision, or file absent from
that revision's tree). -/
def getContent (r : Repo) (hash : Nat) (fileName : String) : String :=
  match revIndex r.history hash with
  | none => contentSentinel
  | some i =>
    match treeContent (r.history.take (i + 1)) fileName with
    | none => contentSentinel
    | some c => c

/-- `restore` from `src/tracker.ts`: fetch the content, bail out on
the sentinel, write to the destination; a throwing write is caught and
turned into `false`. -/
def restore (r : Repo) (hash : Nat) (fileName : String) (fs : FS)
    (destPath : String) : Bool × FS :=
  let content := getContent r hash fileName
  if content = contentSentinel then (false, fs)
  else
    match fs.write destPath content with
    | none => (false, fs)
    | some fs2 => (true, fs2)

/-! ### `getLog` -/

/-- Structured per-commit diff stats as simple-git reports them. -/
structure LogDiffStat where
  insertions : Nat
  deletions : Nat
deriving DecidableEq

/-- One raw entry of the backend's log output. -/
structure LogEntry where
  hash : Nat
  date : Nat
  message : String
  body : String
  diff : Option LogDiffStat
deriving DecidableEq

/-- The `SnapshotInfo` record of `src/tracker.ts`. -/
structure SnapshotInfo where
  hash : Nat
  date : Nat
  message : String
  insertions : Nat
  deletions : Nat
deriving DecidableEq

/-- A failure of the backend read underlying `getLog`. -/
inductive GitErr : Type
  | failure : GitErr

def digitsToNatAux (acc : Nat) : List Char → Nat
  | [] => acc
  | c :: cs => digitsToNatAux (acc * 10 + (c.toNat - '0'.toNat)) cs

/-- Value of a digit run (`parseInt`). -/
def digitsToNat (ds : List Char) : Nat := digitsToNatAux 0 ds

/-- Maximal digit run at the front, and the rest. -/
def takeDigits (cs : List Char) : List Char × List Char :=
  (cs.takeWhile Char.isDigit, cs.dropWhile Char.isDigit)

/-- Strip a literal from the front. -/
def stripLit : List Char → List Char → Option (List Char)
  | [], cs => some cs
  | _ :: _, [] => none
  | p :: ps, c :: cs => if c = p then stripLit ps cs else none

/-- Earliest match of `(\d+) deletion` scanning forward; the lazy `.`
of the regex cannot cross a newline, so the scan stops at one. -/
def findDeletionNum : List Char → Option Nat
  | [] => none
  | c :: cs =>
    match takeDigits (c :: cs) with
    | ([], _) => if c = '\n' then none else findDeletionNum cs
    | (d :: ds, rest) =>
      match stripLit " deletion".data rest with
      | some _ => some (digitsToNat (d :: ds))
      | none => if c = '\n' then none else findDeletionNum cs

/-- Try to match `(\d+) insertion.*?(\d+) deletion` at the current
position. -/
def tryStatAt (cs : List Char) : Option (Nat × Nat) :=
  match takeDigits cs with
  | ([], _) => none
  | (d :: ds, rest) =>
    match stripLit " insertion".data rest with
    | none => none
    | some rest2 =>
      (findDeletionNum rest2).map (fun del => (digitsToNat (d :: ds), del))

/-- Leftmost match of `/(\d+) insertion.*?(\d+) deletion/` over the
body text. -/
def statMatch : List Char → Option (Nat × Nat)
  | [] => none
  | c :: cs =>
    match tryStatAt (c :: cs) with
    | some r => some r
    | none => statMatch cs

/-- The entry mapping inside `getLog`: take structured stats when
present, otherwise fall back to pattern-matching the stat line in the
commit body. -/
def parseEntry (e : LogEntry) : SnapshotInfo :=
  let ins0 : Nat := match e.diff with | some d => d.insertions | none => 0
  let del0 : Nat := match e.diff with | some d => d.deletions | none => 0
  let stats : Nat × Nat :=
    if ins0 = 0 ∧ del0 = 0 ∧ ¬ e.body = "" then
      match statMatch e.body.data with
      | some p => p
      | none => (ins0, del0)
    else (ins0, del0)
  ⟨e.hash, e.date, e.message, stats.1, stats.2⟩

/-- `getLog` from `src/tracker.ts`, as a function of the outcome of
the backend read `git.log(args)`: the whole mapping is inside one
`try`, and any failure yields the empty sequence. -/
def getLog (fetched : Except GitErr (List LogEntry)) : List SnapshotInfo :=
  match fetched with
  | Except.error _ => []
  | Except.ok entries => entries.map parseEntry

/-! ### Concrete states used by the claim theorems and witnesses -/

/-- A watched project with one file. -/
def demoProject : ProjectConfig := ⟨"proj", "/home/u/proj", ["note.md"]⟩

/-- Initial state: the watched file exists, a notification callback is
registered, nothing is watched yet. -/
def demoSys : Sys :=
  ⟨"/home/u", ⟨[("/home/u/proj/note.md", "hello")], []⟩, [], 0, 0, [], [], true, []⟩

/-- The timer armed by the first change event of `demoSys`. -/
def demoTimer : Timer := ⟨"proj", "note.md", "/home/u/proj/note.md", 0⟩

/-- Watch the file, receive one change event (arming the debounce
timer), then untrack the file before the timer fires. -/
def demoAfterStop : Sys :=
  (((demoSys.startWatching demoProject).changeEvent
      (watchKey "proj" "note.md")).stopWatching "proj" none)

/-- The debounce window then elapses. -/
def demoFinal : Sys := demoAfterStop.fireTimer demoTimer

/-- Minimal state with one existing source file. -/
def w2Sys : Sys := ⟨"/h", ⟨[("/d/p.txt", "x")], []⟩, [], 0, 0, [], [], false, []⟩

/-- The state after a first successful commit of that file. -/
def w2After : Sys := (w2Sys.snapshot "pr" "/d/p.txt").2

/-- A repo whose whole history is one commit of `a.md`. -/
def w4Commit : Commit := ⟨7, "a.md", "x", "[a.md] auto-snapshot"⟩

def w4Repo : Repo := ⟨[("a.md", "x")], [w4Commit]⟩

/-- A state with a registered callback and one armed timer whose file
exists. -/
def w5T : Timer := ⟨"p", "f.md", "/d/f.md", 0⟩

def w5Sys : Sys := ⟨"/h", ⟨[("/d/f.md", "y")], []⟩, [], 0, 1, [], [w5T], true, []⟩

/-- A state whose filesystem has no files at all. -/
def w6Sys : Sys := ⟨"/h", ⟨[], []⟩, [], 0, 0, [], [], false, []⟩

/-- A fresh state and a two-file project for the watch-registry
claims. -/
def w9Sys : Sys := ⟨"/h", ⟨[], []⟩, [], 0, 0, [], [], false, []⟩

def w9Project : ProjectConfig := ⟨"p", "/d", ["a.md", "b.md"]⟩

/-- A repo whose only commit stores, as genuine file content, exactly
the failure sentinel of `getContent`. -/
def w10Repo : Repo :=
  ⟨[("a.md", "(content not available)")],
    [⟨3, "a.md", "(content not available)", "[a.md] auto-snapshot"⟩]⟩

def w10Fs : FS := ⟨[], []⟩

end DiffDen

namespace DiffDen

/-! ### Toolkit lemmas about association lists and the store -/

theorem find?_append_left {α : Type} (p : α → Bool) (l₁ l₂ : List α)
    (h : (l₁.find? p).isSome) : (l₁ ++ l₂).find? p = l₁.find? p := by
  induction l₁ with
  | nil => simp at h
  | cons a l ih =>
    cases hpa : p a with
    | true =>
      rw [List.cons_append, List.find?_cons_of_pos _ hpa,
        List.find?_cons_of_pos _ hpa]
    | false =>
      rw [List.find?_cons_of_neg _ (by simp [hpa])] at h
      rw [List.cons_append, List.find?_cons_of_neg _ (by simp [hpa]),
        List.find?_cons_of_neg _ (by simp [hpa])]
      exact ih h

theorem find?_filter_compat {α : Type} (p q : α → Bool) (l : List α)
    (h : ∀ e, p e = true → q e = true) : (l.filter q).find? p = l.find? p := by
  induction l with
  | nil => rfl
  | cons a l ih =>
    cases hq : q a with
    | true =>
      rw [List.filter_cons_of_pos hq]
      cases hpa : p a with
      | true =>
        rw [List.find?_cons_of_pos _ hpa, List.find?_cons_of_pos _ hpa]
      | false =>
        rw [List.find?_cons_of_neg _ (by simp [hpa]),
          List.find?_cons_of_neg _ (by simp [hpa])]
        exact ih
    | false =>
      have hpa : p a = false := by
        cases hpa : p a with
        | true => exact absurd (h a hpa) (by simp [hq])
        | false => rfl
      rw [List.filter_cons_of_neg (by simp [hq]), ih,
        List.find?_cons_of_neg _ (by simp [hpa])]

theorem lookupA_setA_self {α : Type} (l : List (String × α)) (k : String) (v : α) :
    lookupA (setA l k v) k = some v := by
  simp [lookupA, setA]

theorem lookupA_none_iff {α : Type} (l : List (String × α)) (k : String) :
    lookupA l k = none ↔ k ∉ l.map Prod.fst := by
  unfold lookupA
  rw [Option.map_eq_none', List.find?_eq_none]
  simp only [decide_eq_true_eq, List.mem_map]
  constructor
  · rintro h ⟨e, he, hek⟩
    exact h e he hek
  · intro h e he hek
    exact h ⟨e, he, hek⟩

theorem lookupA_append_left {α : Type} (l₁ l₂ : List (String × α)) (k : String)
    (h : (lookupA l₁ k).isSome) : lookupA (l₁ ++ l₂) k = lookupA l₁ k := by
  unfold lookupA at h ⊢
  cases hf : l₁.find? (fun e => decide (e.1 = k)) with
  | none => rw [hf] at h; simp at h
  | some e => rw [find?_append_left _ _ _ (by rw [hf]; rfl), hf]

theorem countKey_le_one_of_distinct {α : Type} (l : List (String × α))
    (k : String) (h : distinctKeys l) : countKey l k ≤ 1 := by
  unfold countKey
  unfold distinctKeys at h
  induction l with
  | nil => simp
  | cons e l ih =>
    simp only [List.map_cons, List.nodup_cons] at h
    by_cases hek : e.1 = k
    · rw [List.filter_cons_of_pos (by simp [hek])]
      have hrest : l.filter (fun e2 => decide (e2.1 = k)) = [] := by
        rw [List.filter_eq_nil_iff]
        intro a ha
        simp only [decide_eq_true_eq]
        intro hak
        exact h.1 (by rw [hek, ← hak]; exact List.mem_map_of_mem Prod.fst ha)
      rw [hrest]
      simp
    · rw [List.filter_cons_of_neg (by simp [hek])]
      exact ih h.2

theorem lookupA_setA_ne {α : Type} (l : List (String × α)) (k k' : String) (v : α)
    (h : ¬ k' = k) : lookupA (setA l k v) k' = lookupA l k' := by
  unfold lookupA setA
  rw [List.find?_cons_of_neg _ (by simp; exact fun he => h he.symm),
    find?_filter_compat]
  intro e hpe
  simp only [decide_eq_true_eq] at hpe ⊢
  rw [hpe]
  exact h

theorem filter_filter_self {α : Type} (q : α → Bool) (l : List α) :
    (l.filter q).filter q = l.filter q := by
  induction l with
  | nil => rfl
  | cons a l ih =>
    cases hq : q a with
    | true =>
      rw [List.filter_cons_of_pos hq, List.filter_cons_of_pos hq, ih]
    | false => rw [List.filter_cons_of_neg (by simp [hq]), ih]

theorem setA_setA {α : Type} (l : List (String × α)) (k : String) (v v' : α) :
    setA (setA l k v) k v' = setA l k v' := by
  unfold setA
  rw [List.filter_cons_of_neg (by simp), filter_filter_self]

theorem treeContent_append_last (hist : List Commit) (c : Commit) (f : String)
    (hc : c.fileName = f) : treeContent (hist ++ [c]) f = some c.content := by
  unfold treeContent
  rw [List.filter_append]
  simp [hc]

/-- `snapshot` only ever touches the repos and the id counter. -/
theorem snapshot_shape (s : Sys) (slug p : String) :
    ∃ rl n, (s.snapshot slug p).2 = { s with repos := rl, nextId := n } := by
  unfold Sys.snapshot
  cases hread : s.fs.read p with
  | none => exact ⟨_, _, rfl⟩
  | some content =>
    simp only
    split
    · exact ⟨_, _, rfl⟩
    · exact ⟨_, _, rfl⟩

theorem snapshot_fs (s : Sys) (slug p : String) :
    ((s.snapshot slug p).2).fs = s.fs := by
  obtain ⟨rl, n, hs⟩ := snapshot_shape s slug p
  rw [hs]

theorem snapshot_notifications (s : Sys) (slug p : String) :
    ((s.snapshot slug p).2).notifications = s.notifications := by
  obtain ⟨rl, n, hs⟩ := snapshot_shape s slug p
  rw [hs]

theorem snapshot_callback (s : Sys) (slug p : String) :
    ((s.snapshot slug p).2).callback = s.callback := by
  obtain ⟨rl, n, hs⟩ := snapshot_shape s slug p
  rw [hs]

/-- One `snapshot` call appends at most one history entry to any
repo. -/
theorem snapshot_extends_by_at_most_one (s : Sys) (slug p rp : String) :
    ((s.snapshot slug p).2.historyAt rp).length ≤ (s.historyAt rp).length + 1 := by
  unfold Sys.snapshot Sys.historyAt
  by_cases hrp : rp = getRepoPath s.home slug
  · subst hrp
    cases hread : s.fs.read p with
    | none => simp [lookupA_setA_self]
    | some content =>
      simp only
      split
      · simp [lookupA_setA_self]
      · simp [lookupA_setA_self]
  · cases hread : s.fs.read p with
    | none => simp [lookupA_setA_ne _ _ _ _ hrp]
    | some content =>
      simp only
      split
      · simp [lookupA_setA_ne _ _ _ _ hrp]
      · simp [lookupA_setA_ne _ _ _ _ hrp]

/-- After a successful `snapshot`, calling it again on the unchanged
file stages identical content and commits nothing: the state is
returned unchanged. -/
theorem snapshot_second_call_noop (s : Sys) (slug p : String) (r : Nat) (s₁ : Sys)
    (h : s.snapshot slug p = (some r, s₁)) : s₁.snapshot slug p = (none, s₁) := by
  unfold Sys.snapshot at h ⊢
  cases hread : s.fs.read p with
  | none => rw [hread] at h; exact absurd h (by simp)
  | some content =>
    rw [hread] at h
    simp only at h
    split at h
    · exact absurd h (by simp)
    · injection h with h1 h2
      subst h2
      simp only [lookupA_setA_self, Option.getD_some, hread]
      simp [Repo.headContent, treeContent_append_last, setA_setA]

/-! ### Claim theorems -/

/-- **C1** (code bug).  The spec requires that untracking a file with
an armed-but-unfired debounce timer cancels the timer, so that no
commit occurs once the window elapses.  The code does not: in the
concrete run below the file is unwatched after `stopWatching`, yet the
armed timer survives, and when it fires a commit is recorded in the
project's repo and a notification is emitted. -/
theorem stopWatching_leaves_timer_armed :
    lookupA demoAfterStop.watchers (watchKey "proj" "note.md") = none
  ∧ demoAfterStop.armed = [demoTimer]
  ∧ (demoFinal.historyAt (getRepoPath "/home/u" "proj")).length = 1
  ∧ demoFinal.notifications = [("proj", "note.md")] := by
  refine ⟨?_, ?_, ?_, ?_⟩ <;> decide

/-- **C2**.  After a successful commit of an existing source file, a
second `snapshot` call with the file's bytes unchanged creates no new
snapshot, returns null and leaves the state (hence every history)
unchanged; moreover any single call advances any repo's history by at
most one entry. -/
theorem snapshot_idempotent_on_unchanged_content (s : Sys) (slug p : String)
    (r : Nat) (s₁ : Sys) (h : s.snapshot slug p = (some r, s₁)) :
    s₁.snapshot slug p = (none, s₁)
  ∧ ∀ s₂ : Sys, ∀ rp : String,
      ((s₂.snapshot slug p).2.historyAt rp).length ≤ (s₂.historyAt rp).length + 1 :=
  ⟨snapshot_second_call_noop s slug p r s₁ h,
   fun s₂ rp => snapshot_extends_by_at_most_one s₂ slug p rp⟩

/-- Witness for C2 on a concrete run. -/
theorem snapshot_idempotent_on_unchanged_content_witness :
    w2Sys.snapshot "pr" "/d/p.txt" = (some 0, w2After)
  ∧ w2After.snapshot "pr" "/d/p.txt" = (none, w2After) :=
  ⟨by decide,
   (snapshot_idempotent_on_unchanged_content w2Sys "pr" "/d/p.txt" 0 w2After
      (by decide)).1⟩

/-- **C6**.  When the source file does not exist, `snapshot` returns
null (no error is raised: the call is total) and no repo's history
changes. -/
theorem snapshot_missing_source_null (s : Sys) (slug p : String)
    (h : s.fs.read p = none) :
    (s.snapshot slug p).1 = none
  ∧ ∀ rp : String, ((s.snapshot slug p).2).historyAt rp = s.historyAt rp := by
  constructor
  · simp [Sys.snapshot, h]
  · intro rp
    unfold Sys.snapshot Sys.historyAt
    rw [h]
    by_cases hrp : rp = getRepoPath s.home slug
    · subst hrp
      simp [lookupA_setA_self]
    · simp [lookupA_setA_ne _ _ _ _ hrp]

/-- Witness for C6 on a concrete state with no files. -/
theorem snapshot_missing_source_null_witness :
    w6Sys.fs.read "/d/p.txt" = none
  ∧ (w6Sys.snapshot "pr" "/d/p.txt").1 = none
  ∧ ((w6Sys.snapshot "pr" "/d/p.txt").2).historyAt (getRepoPath "/h" "pr")
      = w6Sys.historyAt (getRepoPath "/h" "pr") :=
  ⟨by decide,
   (snapshot_missing_source_null w6Sys "pr" "/d/p.txt" (by decide)).1,
   (snapshot_missing_source_null w6Sys "pr" "/d/p.txt" (by decide)).2 _⟩

/-- **C7**.  `restore` is a total boolean-valued operation: it yields
`false` exactly when content retrieval failed (the sentinel came back)
or the destination write failed, and `true` otherwise; no exception
reaches the caller. -/
theorem restore_false_iff (r : Repo) (hash : Nat) (f : String) (fs : FS)
    (dest : String) :
    (restore r hash f fs dest).1 = false
      ↔ (getContent r hash f = contentSentinel
          ∨ fs.write dest (getContent r hash f) = none) := by
  simp only [restore]
  by_cases hc : getContent r hash f = contentSentinel
  · simp [hc]
  · simp only [if_neg hc]
    cases hw : fs.write dest (getContent r hash f) with
    | none => simp [hw, hc]
    | some fs2 => simp [hw, hc]

/-- **C8**.  When the backend read underlying `getLog` fails, the
result is the empty sequence: the whole mapping sits inside one `try`
whose `catch` returns `[]`. -/
theorem getLog_backend_failure_empty (e : GitErr) :
    getLog (Except.error e) = [] := rfl

/-- **C10** (implicit).  If a revision's stored file content is the
literal sentinel text, content retrieval succeeds with that text, yet
`restore` returns `false` and leaves the filesystem untouched: the
sentinel is indistinguishable from genuine content. -/
theorem restore_rejects_sentinel_valued_content (r : Repo) (hash i : Nat)
    (f : String) (fs : FS) (dest : String)
    (hidx : revIndex r.history hash = some i)
    (hc : treeContent (r.history.take (i + 1)) f = some contentSentinel) :
    getContent r hash f = contentSentinel
  ∧ restore r hash f fs dest = (false, fs) := by
  have h1 : getContent r hash f = contentSentinel := by
    simp [getContent, hidx, hc]
  exact ⟨h1, by simp [restore, h1]⟩

/-- **C3** counterexample.  Two distinct project directories with the
same basename are assigned the same slug and hence the same backend
repository directory: the claim that no two projects ever share a
storage directory fails on the code. -/
theorem distinct_dirs_shared_repo_dir :
    ("/a/proj" : String) ≠ "/b/proj"
  ∧ projectSlug "/a/proj" = projectSlug "/b/proj"
  ∧ getRepoPath "/home/u" (projectSlug "/a/proj")
      = getRepoPath "/home/u" (projectSlug "/b/proj") :=
  ⟨by decide, by decide, by decide⟩

/-- **C3** amended.  Projects whose derived slugs differ are assigned
distinct backend repository directories (the repo path is injective in
the slug); only projects whose directories sanitize to the same
basename slug share storage. -/
theorem distinct_slugs_distinct_repo_dirs (home d₁ d₂ : String)
    (h : projectSlug d₁ ≠ projectSlug d₂) :
    getRepoPath home (projectSlug d₁) ≠ getRepoPath home (projectSlug d₂) := by
  intro he
  apply h
  have h2 := congrArg String.data he
  simp [getRepoPath, REPOS_DIR, DATA_DIR, String.data_append] at h2
  exact String.ext h2

/-- Witness for the amended C3. -/
theorem distinct_slugs_distinct_repo_dirs_witness :
    projectSlug "/a/x" ≠ projectSlug "/a/y"
  ∧ getRepoPath "/home/u" (projectSlug "/a/x")
      ≠ getRepoPath "/home/u" (projectSlug "/a/y") :=
  ⟨by decide,
   distinct_slugs_distinct_repo_dirs "/home/u" "/a/x" "/a/y" (by decide)⟩

/-- **C5**.  When an armed debounce timer settles and a callback is
registered, the notification fires exactly when the triggered commit
returned a new revision id, carrying (slug, fileName); a null commit
fires nothing. -/
theorem fireTimer_notifies_iff_commit (s : Sys) (t : Timer)
    (hcb : s.callback = true) (ht : t ∈ s.armed) :
    (s.fireTimer t).notifications
      = s.notifications ++
          (match (Sys.snapshot { s with armed := s.armed.erase t }
                    t.slug t.filePath).1 with
           | some _ => [(t.slug, t.fileName)]
           | none => []) := by
  unfold Sys.fireTimer
  rw [if_pos ht]
  simp only
  cases hr : (Sys.snapshot { s with armed := s.armed.erase t }
      t.slug t.filePath).1 with
  | none => simp [hr, snapshot_notifications]
  | some hash =>
    have hcb2 : (Sys.snapshot { s with armed := s.armed.erase t }
        t.slug t.filePath).2.callback = true := by
      rw [snapshot_callback]
      exact hcb
    simp [hr, hcb2, snapshot_notifications]

/-- Witness for C5 on a concrete armed timer whose file exists. -/
theorem fireTimer_notifies_iff_commit_witness :
    w5Sys.callback = true
  ∧ (w5Sys.fireTimer w5T).notifications
      = w5Sys.notifications ++
          (match (Sys.snapshot { w5Sys with armed := w5Sys.armed.erase w5T }
                    w5T.slug w5T.filePath).1 with
           | some _ => [(w5T.slug, w5T.fileName)]
           | none => []) :=
  ⟨rfl, fireTimer_notifies_iff_commit w5Sys w5T rfl (by decide)⟩

/-- Witness for C10: a repo whose only commit genuinely contains the
sentinel text. -/
theorem restore_rejects_sentinel_valued_content_witness :
    revIndex w10Repo.history 3 = some 0
  ∧ treeContent (w10Repo.history.take 1) "a.md" = some contentSentinel
  ∧ restore w10Repo 3 "a.md" w10Fs "/d/a.md" = (false, w10Fs) :=
  ⟨by decide, by decide,
   (restore_rejects_sentinel_valued_content w10Repo 3 0 "a.md" w10Fs "/d/a.md"
      (by decide) (by decide)).2⟩

/-! ### The watch registry (toward C9) -/

theorem startOne_distinct (slug dir : String) (s : Sys) (f : String)
    (h : distinctKeys s.watchers) :
    distinctKeys ((startOne slug dir s f).watchers) := by
  simp only [startOne]
  split
  · exact h
  next hnone =>
    show distinctKeys (s.watchers ++ [(watchKey slug f, _)])
    unfold distinctKeys at h ⊢
    rw [List.map_append, List.nodup_append]
    refine ⟨h, by simp, ?_⟩
    intro a ha hb
    simp only [List.map_cons, List.map_nil, List.mem_singleton] at hb
    subst hb
    have : lookupA s.watchers (watchKey slug f) = none := by
      cases hl : lookupA s.watchers (watchKey slug f) with
      | none => rfl
      | some e => rw [hl] at hnone; simp at hnone
    exact absurd ha ((lookupA_none_iff _ _).mp this)

theorem startOne_lookup (slug dir : String) (s : Sys) (f k : String)
    (h : (lookupA s.watchers k).isSome) :
    lookupA ((startOne slug dir s f).watchers) k = lookupA s.watchers k := by
  simp only [startOne]
  split
  · rfl
  · exact lookupA_append_left _ _ _ h

theorem startWatching_aux (slug dir : String) (files : List String) (s : Sys)
    (h : distinctKeys s.watchers) :
    distinctKeys ((files.foldl (startOne slug dir) s).watchers)
  ∧ ∀ k, (lookupA s.watchers k).isSome →
      lookupA ((files.foldl (startOne slug dir) s).watchers) k
        = lookupA s.watchers k := by
  induction files generalizing s with
  | nil => exact ⟨h, fun k _ => rfl⟩
  | cons f fs ih =>
    simp only [List.foldl_cons]
    obtain ⟨ih1, ih2⟩ := ih (startOne slug dir s f) (startOne_distinct slug dir s f h)
    refine ⟨ih1, fun k hk => ?_⟩
    have hpres := startOne_lookup slug dir s f k hk
    rw [ih2 k (by rw [hpres]; exact hk), hpres]

/-- **C9**.  Starting from a state whose watch table has pairwise
distinct keys, `startWatching` keeps the keys distinct, leaves every
already-registered watch untouched (idempotent start, no replacement),
and leaves at most one watch per key. -/
theorem startWatching_idempotent_one_per_key (s : Sys) (p : ProjectConfig)
    (h : distinctKeys s.watchers) :
    distinctKeys ((s.startWatching p).watchers)
  ∧ (∀ k, (lookupA s.watchers k).isSome →
        lookupA ((s.startWatching p).watchers) k = lookupA s.watchers k)
  ∧ (∀ k, countKey ((s.startWatching p).watchers) k ≤ 1) := by
  obtain ⟨h1, h2⟩ := startWatching_aux p.slug p.dir p.files s h
  exact ⟨h1, h2, fun k => countKey_le_one_of_distinct _ k h1⟩

/-- Witness for C9: watch a two-file project twice; the table stays
duplicate-free and the first registration survives unchanged. -/
theorem startWatching_idempotent_one_per_key_witness :
    distinctKeys (((w9Sys.startWatching w9Project).startWatching w9Project).watchers)
  ∧ lookupA (((w9Sys.startWatching w9Project).startWatching w9Project).watchers)
      (watchKey "p" "a.md")
      = lookupA ((w9Sys.startWatching w9Project).watchers) (watchKey "p" "a.md") :=
  ⟨(startWatching_idempotent_one_per_key (w9Sys.startWatching w9Project) w9Project
      (by decide)).1,
   (startWatching_idempotent_one_per_key (w9Sys.startWatching w9Project) w9Project
      (by decide)).2.1 (watchKey "p" "a.md") (by decide)⟩

/-! ### Diff lemmas (toward C4) -/

theorem splitNl_ne_nil (cs : List Char) : splitNl cs ≠ [] := by
  cases cs with
  | nil => simp [splitNl]
  | cons c cs =>
    unfold splitNl
    by_cases h : c = '\n'
    · simp [h]
    · simp only [if_neg h]
      cases hs : splitNl cs <;> simp

theorem splitLines_ne_nil (s : String) : splitLines s ≠ [] := by
  unfold splitLines
  intro h
  exact splitNl_ne_nil s.data (by simpa using h)

theorem diffLines_nil_left (ns : List String) :
    diffLines [] ns = ns.map DiffLine.add := by
  cases ns <;> rfl

theorem diffLines_self (os : List String) : diffLines os os = [] := by
  induction os with
  | nil => rfl
  | cons o os ih =>
    unfold diffLines
    rw [if_pos rfl]
    exact ih

theorem diffLines_eq_nil_iff (os ns : List String) :
    diffLines os ns = [] ↔ os = ns := by
  induction os generalizing ns with
  | nil =>
    cases ns with
    | nil => simp [diffLines]
    | cons n ns => simp [diffLines]
  | cons o os ih =>
    cases ns with
    | nil => simp [diffLines]
    | cons n ns =>
      unfold diffLines
      by_cases h : o = n
      · rw [if_pos h, ih]
        simp [h]
      · rw [if_neg h]
        simp [h]

theorem append_cons_eq_single {α : Type} (xs ys : List α) (c : α)
    (h : xs ++ c :: ys = [c]) : xs = [] ∧ ys = [] := by
  have hl := congrArg List.length h
  simp only [List.length_append, List.length_cons, List.length_nil] at hl
  exact ⟨List.eq_nil_of_length_eq_zero (by omega),
    List.eq_nil_of_length_eq_zero (by omega)⟩

theorem revIndex_get (l : List Commit) (i : Nat) (hi : i < l.length)
    (hnd : (l.map (fun c => c.id)).Nodup) :
    revIndex l (l.get ⟨i, hi⟩).id = some i := by
  induction l generalizing i with
  | nil => simp at hi
  | cons c cs ih =>
    simp only [List.map_cons, List.nodup_cons] at hnd
    cases i with
    | zero => simp [revIndex]
    | succ j =>
      have hj : j < cs.length := by simpa using hi
      have hne : ¬ c.id = (cs.get ⟨j, hj⟩).id := by
        intro he
        exact hnd.1 (by rw [he]; exact List.mem_map_of_mem _ (cs.get_mem _ _))
      have hg : (c :: cs).get ⟨j + 1, hi⟩ = cs.get ⟨j, hj⟩ := rfl
      rw [hg]
      unfold revIndex
      rw [if_neg hne, ih j hj hnd.2]
      rfl

theorem filter_take_nil (l : List Commit) (p : Commit → Bool) (c : Commit)
    (i : Nat) (hi : i < l.length) (hg : l.get ⟨i, hi⟩ = c)
    (hpc : p c = true) (h : l.filter p = [c]) :
    (l.take i).filter p = [] := by
  have hsplit : l = l.take i ++ c :: l.drop (i + 1) := by
    conv_lhs => rw [← List.take_append_drop i l]
    rw [List.drop_eq_get_cons hi, hg]
  rw [hsplit, List.filter_append, List.filter_cons_of_pos hpc] at h
  exact (append_cons_eq_single _ _ _ h).1

theorem treeContent_take_succ (l : List Commit) (i : Nat) (hi : i < l.length)
    (f : String) (hf : (l.get ⟨i, hi⟩).fileName = f) :
    treeContent (l.take (i + 1)) f = some (l.get ⟨i, hi⟩).content := by
  have hge : l[i]? = some (l.get ⟨i, hi⟩) := by
    rw [List.getElem?_eq_getElem hi]
    rfl
  rw [List.take_succ, hge]
  simp only [Option.toList_some]
  exact treeContent_append_last _ _ _ hf

theorem dedupFirst_singleton (x : String) : dedupFirst [x] = [x] := by
  simp [dedupFirst]

/-- **C4**.  For a file with exactly one revision in the repo,
`getDiff` on that revision diffs against the empty state and the
entire content appears as additions; for a revision at a later index
of the history, `getDiff` diffs exactly the immediate-predecessor
tree's content of the file against the revision's content; and the
backend line diff is empty precisely on unchanged input, so only the
delta appears. -/
theorem getDiff_first_all_additions_later_delta (r : Repo) (f : String)
    (hnd : (r.history.map (fun c => c.id)).Nodup) :
    (∀ c, c ∈ r.history →
        r.history.filter (fun d => d.fileName = f) = [c] →
        ¬ c.content = "" →
        getDiff r c.id (some f)
          = DiffResult.lines ((splitLines c.content).map DiffLine.add))
  ∧ (∀ i, ∀ hi : i < r.history.length, 0 < i →
        (r.history.get ⟨i, hi⟩).fileName = f →
        getDiff r (r.history.get ⟨i, hi⟩).id (some f)
          = mkResult
              (diffLines (fileLines (treeContent (r.history.take i) f))
                (fileLines (some (r.history.get ⟨i, hi⟩).content)))
              DiffResult.noDiffAvailable)
  ∧ (∀ os ns : List String, diffLines os ns = [] ↔ os = ns) := by
  refine ⟨?_, ?_, diffLines_eq_nil_iff⟩
  · intro c hc hfilter hcne
    obtain ⟨⟨i, hi⟩, hg⟩ := List.mem_iff_get.mp hc
    have hmemf : c ∈ r.history.filter (fun d => decide (d.fileName = f)) := by
      rw [hfilter]
      exact List.mem_singleton_self c
    have hpc := List.of_mem_filter hmemf
    have hcf : c.fileName = f := by simpa using hpc
    have hrev : revIndex r.history c.id = some i := by
      have hr := revIndex_get r.history i hi hnd
      rwa [hg] at hr
    have htake : (r.history.take i).filter (fun d => decide (d.fileName = f)) = [] :=
      filter_take_nil r.history _ c i hi hg hpc hfilter
    have htc : treeContent (r.history.take i) f = none := by
      simp [treeContent, htake]
    have htc1 : treeContent (r.history.take (i + 1)) f = some c.content := by
      have ht := treeContent_take_succ r.history i hi f (by rw [hg]; exact hcf)
      rwa [hg] at ht
    have hmapne : ¬ (splitLines c.content).map DiffLine.add = [] := by
      simp only [List.map_eq_nil]
      exact splitLines_ne_nil c.content
    unfold getDiff
    simp only [hrev]
    by_cases hi0 : i = 0
    · subst hi0
      rw [if_pos rfl]
      have ht1 : r.history.take 1 = [c] := by
        have hge : r.history[0]? = some (r.history.get ⟨0, hi⟩) := by
          rw [List.getElem?_eq_getElem hi]
          rfl
        rw [List.take_succ, hge, hg]
        rfl
      rw [ht1]
      have hdt : diffTrees [] [c] = (splitLines c.content).map DiffLine.add := by
        unfold diffTrees
        simp only [List.nil_append, List.map_cons, List.map_nil,
          dedupFirst_singleton, List.flatMap_cons, List.flatMap_nil,
          List.append_nil]
        have htn : treeContent ([] : List Commit) c.fileName = none := rfl
        have hts : treeContent [c] c.fileName = some c.content := by
          simp [treeContent]
        rw [htn, hts]
        simp only [fileLines, if_neg hcne]
        exact diffLines_nil_left _
      rw [hdt]
      unfold mkResult
      rw [if_neg hmapne]
    · rw [if_neg hi0]
      simp only [htc, htc1]
      simp only [fileLines, if_neg hcne]
      rw [diffLines_nil_left]
      unfold mkResult
      rw [if_neg hmapne]
  · intro i hi hpos hf
    have hrev : revIndex r.history (r.history.get ⟨i, hi⟩).id = some i :=
      revIndex_get r.history i hi hnd
    unfold getDiff
    simp only [hrev]
    rw [if_neg (Nat.pos_iff_ne_zero.mp hpos)]
    simp only [treeContent_take_succ r.history i hi f hf]

/-- Witness for C4: the single revision of `w4Repo` diffs to its full
content as additions. -/
theorem getDiff_first_all_additions_later_delta_witness :
    (w4Repo.history.map (fun c => c.id)).Nodup
  ∧ getDiff w4Repo 7 (some "a.md")
      = DiffResult.lines ((splitLines "x").map DiffLine.add) :=
  ⟨by decide,
   (getDiff_first_all_additions_later_delta w4Repo "a.md" (by decide)).1 w4Commit
     (by decide) (by decide) (by decide)⟩

end DiffDen
